import Mathlib

/-!
Verification of the K-14T fact-memory store (src/memory_store.py and the
memory helpers of src/ai_loop.py) against its natural-language specification.

The Python code is shallowly embedded: the in-memory cache and the durable
line-delimited log are lists of entry structures, file writes are modelled by
an explicit success flag, and the string primitives (`str.lower`,
`str.split`, `str.strip`, `str.isalnum`) are reproduced on the ASCII
fragment that the stored facts and queries use (Python's versions are
Unicode-aware; every rule modelled here agrees with Python on ASCII input).
-/

/-! ## Python string primitives (ASCII fragment) -/

/-- The whitespace characters recognised by Python's `str.split()` /
`str.strip()` on ASCII text: space, tab, newline, carriage return,
vertical tab, form feed. -/
def pyIsWs (c : Char) : Bool :=
  c.toNat = 32 || c.toNat = 9 || c.toNat = 10 || c.toNat = 13 ||
  c.toNat = 11 || c.toNat = 12

/-- Python `str.isalnum()` on the ASCII fragment: digits, uppercase and
lowercase letters. -/
def pyIsAlnum (c : Char) : Bool :=
  (48 ≤ c.toNat && c.toNat ≤ 57) || (65 ≤ c.toNat && c.toNat ≤ 90) ||
  (97 ≤ c.toNat && c.toNat ≤ 122)

/-- Python `str.lower()` on a single ASCII character: map A-Z to a-z,
leave everything else unchanged. -/
def pyLower (c : Char) : Char :=
  if 65 ≤ c.toNat && c.toNat ≤ 90 then Char.ofNat (c.toNat + 32) else c

/-- Python `str.lower()` over a whole string (ASCII fragment). -/
def lowerStr (s : String) : String :=
  String.mk (s.data.map pyLower)

/-- Split a character list at every separator character (characters
satisfying `sep`), keeping empty pieces; the backbone of the models of
Python's `str.split`.  The result is always nonempty. -/
def wsplit (sep : Char → Bool) : List Char → List (List Char)
  | [] => [[]]
  | c :: cs =>
    if sep c then [] :: wsplit sep cs
    else
      match wsplit sep cs with
      | [] => [[c]]
      | t :: ts => (c :: t) :: ts

/-- The maximal runs of non-separator characters: split and drop the empty
pieces. -/
def runsOf (sep : Char → Bool) (cs : List Char) : List (List Char) :=
  (wsplit sep cs).filter (· ≠ [])

/-- Python `str.split()` with no argument: the whitespace-separated words of
a string, with no empty words. -/
def pyWords (s : String) : List String :=
  (runsOf pyIsWs s.data).map (fun l => String.mk l)

/-- Python `str.strip()`: drop leading and trailing whitespace. -/
def stripS (s : String) : String :=
  String.mk (((s.data.dropWhile pyIsWs).reverse.dropWhile pyIsWs).reverse)

/-- Model of `norm` from src/ai_loop.py: lowercase and collapse whitespace runs to
single spaces (`" ".join(text.lower().split())`), the normal form used for
duplicate detection. -/
def normS (s : String) : String :=
  String.intercalate " " (pyWords (lowerStr s))

/-- Order-preserving de-duplication keeping the first occurrence of each
element, with an accumulator of the elements already seen; models the
`out = []; for f in top: if f not in out: out.append(f)` loop of
`MemoryStore.retrieve`. -/
def dedupAux [DecidableEq α] (seen : List α) : List α → List α
  | [] => []
  | x :: xs => if x ∈ seen then dedupAux seen xs else x :: dedupAux (x :: seen) xs

/-- Order-preserving de-duplication keeping first occurrences. -/
def dedupFirst [DecidableEq α] (l : List α) : List α :=
  dedupAux [] l

/-- Python's suffix slice `l[-k:]` for a nonnegative `k`: the last `k`
elements, except that `l[-0:]` is the whole list. -/
def sliceLast (k : Nat) (l : List α) : List α :=
  if k = 0 then l else l.drop (l.length - k)

/-- Python substring test `needle in haystack` (prefix test helper):
`needleIsAt n h` holds when `n` occurs at the very start of `h`. -/
def needleIsAt : List Char → List Char → Bool
  | [], _ => true
  | _ :: _, [] => false
  | a :: as, b :: bs => a = b && needleIsAt as bs

/-- Python substring test `needle in haystack` over character lists. -/
def hasSubList (needle : List Char) : List Char → Bool
  | [] => needle.isEmpty
  | b :: bs => needleIsAt needle (b :: bs) || hasSubList needle bs

/-- Python substring test `needle in haystack` over strings. -/
def hasSub (needle haystack : String) : Bool :=
  hasSubList needle.data haystack.data

/-- Python string comparison (`<` on `str`): lexicographic by code point,
a proper prefix is smaller. -/
def strLtB : List Char → List Char → Bool
  | [], [] => false
  | [], _ :: _ => true
  | _ :: _, [] => false
  | a :: as, b :: bs =>
    a.toNat < b.toNat || (a.toNat = b.toNat && strLtB as bs)

/-! ## The MemoryStore data model (src/memory_store.py) -/

/-- A log entry of `memory/long_term.jsonl` as written by
`MemoryStore.add_fact`: a creation timestamp and the fact text.
(`time.time()` returns a float; only identity of entries matters to the
claims, so the timestamp is modelled as a natural number.) -/
structure Entry where
  ts : Nat
  fact : String
deriving DecidableEq, Repr

/-- The state of a `MemoryStore`: the in-memory cache `self._cache` and the
contents of the durable log file, both as entry lists (the log holds one
JSON object per line). -/
structure Store where
  cache : List Entry
  log : List Entry
deriving DecidableEq, Repr

/-- Model of `MemoryStore.__init__`'s load loop: strip each line, skip empty lines,
parse with `json.loads` inside `try`/`except: pass` — modelled by an
arbitrary fallible decoder `decode` (the JSON parser is library code, not
part of this repository; a corrupt or mid-line-truncated line is one on
which `decode` returns `none`).  The loop appends each successfully decoded
entry to the cache in file order and silently skips the rest; it has no
failing path. -/
def loadCache (decode : String → Option α) : List String → List α
  | [] => []
  | line :: rest =>
    let l := stripS line
    if l = "" then loadCache decode rest
    else
      match decode l with
      | some e => e :: loadCache decode rest
      | none => loadCache decode rest

/-- Model of `MemoryStore.add_fact`: strip the text; empty text is a silent no-op;
otherwise append the entry to the durable log and then to the cache.
`writeOk` models whether the file append succeeds; the Python code performs
the cache update only after the `with open(...)` block has written, so a
failed write (an exception, `Except.error`) leaves the cache untouched. -/
def addFact (writeOk : Bool) (now : Nat) (fact : String) (st : Store) :
    Except Unit Unit × Store :=
  if stripS fact = "" then (Except.ok (), st)
  else if writeOk then
    (Except.ok (),
     Store.mk (st.cache ++ [Entry.mk now (stripS fact)])
              (st.log ++ [Entry.mk now (stripS fact)]))
  else (Except.error (), st)

/-- Model of `MemoryStore.list_facts(limit)`: the Python slice `self._cache[-limit:]`;
for `limit = 0` this is the whole cache (Python `[-0:]`), otherwise the last
`limit` entries, oldest first. -/
def listFacts (limit : Nat) (cache : List Entry) : List Entry :=
  sliceLast limit cache

/-- Model of `MemoryStore.delete_index(idx)` with an explicit write-success flag.
`idx` indexes the window `list_facts()` (the last 50 entries).  Out of
bounds: return `false`, no mutation, no write attempted (the Python code
also rejects negative indices the same way; the model uses naturals).  Otherwise the
cache is rebuilt without the target entry *first*, and only then is the log
file rewritten from the new cache; so when the rewrite fails the error
propagates but the cache already holds the deletion while the log is stale.
The Python code removes the target by object identity (`e is not target`);
since every cache entry is a distinct freshly parsed or freshly constructed
object, this removes exactly the entry at the targeted position, modelled
by `List.eraseIdx` at the absolute position. -/
def deleteIndexF (writeOk : Bool) (idx : Nat) (st : Store) :
    Except Unit Bool × Store :=
  if idx < (listFacts 50 st.cache).length then
    if writeOk then
      (Except.ok true,
       Store.mk
         (st.cache.eraseIdx (st.cache.length - (listFacts 50 st.cache).length + idx))
         (st.cache.eraseIdx (st.cache.length - (listFacts 50 st.cache).length + idx)))
    else
      (Except.error (),
       Store.mk
         (st.cache.eraseIdx (st.cache.length - (listFacts 50 st.cache).length + idx))
         st.log)
  else (Except.ok false, st)

/-- Model of `MemoryStore.delete_index` in the normal (write succeeds) case. -/
def deleteIndex (idx : Nat) (st : Store) : Bool × Store :=
  match deleteIndexF true idx st with
  | (Except.ok b, st') => (b, st')
  | (Except.error _, st') => (false, st')

/-! ## MemoryStore.retrieve -/

/-- The query word set of `MemoryStore.retrieve`:
`{w.lower() for w in user_text.split() if len(w) > 3}` — whitespace-split
words of length at least 4, lowercased, duplicates collapsed. -/
def qWordsR (userText : String) : List String :=
  dedupFirst (((pyWords userText).filter (fun w => 3 < w.length)).map lowerStr)

/-- The word-overlap score of `retrieve` for one entry: the number of
distinct query words that occur among the whitespace-split words of the
lowercased fact (`len(words & fact_words)`). -/
def ovR (userText : String) (e : Entry) : Nat :=
  ((qWordsR userText).filter
    (fun w => (pyWords (lowerStr e.fact)).contains w)).length

/-- Insertion step of a stable descending sort: place `x` before the first
element it is greater than or equal to under `ge`. -/
def insBy (ge : α → α → Bool) (x : α) : List α → List α
  | [] => [x]
  | y :: ys => if ge x y then x :: y :: ys else y :: insBy ge x ys

/-- Stable descending insertion sort: each element is inserted into the
sorted tail and passes exactly the elements strictly greater than it, so
elements that compare equal keep their original relative order — the
behaviour of Python's stable `list.sort(reverse=True)`. -/
def sortBy (ge : α → α → Bool) : List α → List α
  | [] => []
  | x :: xs => insBy ge x (sortBy ge xs)

/-- Python's ≥ on `(int, str)` pairs, used by `scored.sort(reverse=True)` in
`retrieve`: compare scores first, then the fact strings by code point. -/
def tupGe (a b : Nat × String) : Bool :=
  b.1 < a.1 || (a.1 = b.1 && !(strLtB a.2.data b.2.data))

/-- The scored candidate list of `retrieve`: every cache entry with a
nonempty overlap, as `(overlap, fact)` pairs in cache order. -/
def scoredR (cache : List Entry) (userText : String) : List (Nat × String) :=
  cache.filterMap (fun e =>
    let ov := ovR userText e
    if 0 < ov then some (ov, e.fact) else none)

/-- The candidate texts of `retrieve` before de-duplication: the facts of
the `max_items` best-scored pairs, or — when that list is empty — the
recency fallback `[e["fact"] for e in self._cache[-max_items:]]`. -/
def topCand (cache : List Entry) (userText : String) (maxItems : Nat) :
    List String :=
  let top0 := ((sortBy tupGe (scoredR cache userText)).take maxItems).map (·.2)
  if top0 = [] then (sliceLast maxItems cache).map (·.fact) else top0

/-- Model of `MemoryStore.retrieve(user_text, max_items)`: score by word overlap,
sort `(score, fact)` pairs descending (Python tuple order), truncate, fall
back to the most recent facts when nothing scored, de-duplicate keeping
first occurrences, truncate again. -/
def retrieve (cache : List Entry) (userText : String) (maxItems : Nat) :
    List String :=
  (dedupFirst (topCand cache userText maxItems)).take maxItems

example : retrieve [⟨1, "I like tea"⟩, ⟨2, "My project uses a servo"⟩]
    "Do you like tea?" 1 = ["I like tea"] := by decide

example : retrieve [⟨1, "alpha"⟩, ⟨2, "beta ball"⟩] "ball" 2 =
    ["beta ball"] := by decide

example : retrieve [⟨1, "alpha"⟩, ⟨2, "beta"⟩] "zzzzz" 2 =
    ["alpha", "beta"] := by decide

example : retrieve [⟨1, "zebra ball"⟩, ⟨2, "apple ball"⟩] "ball" 2 =
    ["zebra ball", "apple ball"] := by decide

example : retrieve [⟨1, "apple ball"⟩, ⟨2, "zebra ball"⟩] "ball" 2 =
    ["zebra ball", "apple ball"] := by decide

/-! ## The ai_loop.py memory helpers -/

/-- The fact categories assigned by `categorize_fact` in src/ai_loop.py.
Entries loaded from a log written without a category (`m.get("category")`
returns `None` in Python) behave exactly like `misc` everywhere a category
is consulted (only the comparison against `"preference"` matters), so they
are modelled as `Cat.misc`. -/
inductive Cat where
  | preference
  | profile
  | project
  | misc
deriving DecidableEq, Repr

/-- A log entry of the ai_loop variant: timestamp, fact text and category.
The constant `"score": 1.0` field written by `append_memory` is the same on
every entry and is never read, so it is omitted; omitting it does not
change Python's `==` comparison between entries of this shape. -/
structure AEntry where
  ts : Nat
  fact : String
  category : Cat
deriving DecidableEq, Repr

/-- Model of `STOP_WORDS` from src/ai_loop.py. -/
def STOP_WORDS : List String :=
  ["the", "a", "an", "and", "or", "but", "to", "of", "in", "on", "for",
   "with", "is", "it", "that", "this", "i", "you", "me", "my", "your",
   "we", "our", "are", "be"]

/-- Model of `tokenize` from src/ai_loop.py: replace every non-alphanumeric character
by a space while lowercasing the rest, split on whitespace, and drop stop
words (`"".join(c.lower() if c.isalnum() else " " for c in msg).split()`
filtered by `STOP_WORDS`). -/
def tokenize (msg : String) : List String :=
  ((runsOf pyIsWs
      (msg.data.map (fun c => if pyIsAlnum c then pyLower c else ' '))).map
    (fun l => String.mk l)).filter (fun w => !STOP_WORDS.contains w)

/-- The query token set `set(tokenize(user_msg))` of `select_relevant`. -/
def qTokensA (msg : String) : List String :=
  dedupFirst (tokenize msg)

/-- The tokenization rule as the specification words it for the richer
variant: split the original text on non-alphanumeric boundaries (maximal
alphanumeric runs), lowercase each token, drop the stop words. -/
def specTokens (msg : String) : List String :=
  ((runsOf (fun c => !pyIsAlnum c) msg.data).map
    (fun l => String.mk (l.map pyLower))).filter
    (fun w => !STOP_WORDS.contains w)

/-- The query tokenization rule as the claim words it for the simplest
variant: split on non-alphanumeric boundaries, lowercase, and drop tokens
of length at most 2. -/
def specTokensLen2 (msg : String) : List String :=
  dedupFirst (((runsOf (fun c => !pyIsAlnum c) msg.data).map
    (fun l => String.mk (l.map pyLower))).filter (fun w => 2 < w.length))

/-- Model of `categorize_fact` from src/ai_loop.py: keyword lists matched as Python
substrings against the lowercased fact. -/
def categorizeFact (fact : String) : Cat :=
  let f := lowerStr fact
  if ["prefer", "favorite", "like", "love", "hate",
      "don\x27t like"].any (fun p => hasSub p f) then Cat.preference
  else if ["my name", "i am ", "i\x27m ", "i live", "i work",
      "i was born"].any (fun p => hasSub p f) then Cat.profile
  else if ["k-14t", "droid", "hardware", "project", "raspberry", "servo",
      "phase 1", "phase one"].any (fun p => hasSub p f) then Cat.project
  else Cat.misc

/-- Model of `memory_exists` from src/ai_loop.py: some stored fact has the same
normal form as the candidate. -/
def memoryExists (fact : String) (log : List AEntry) : Bool :=
  log.any (fun e => normS e.fact = normS fact)

/-- Model of `prune_memory_if_needed` from src/ai_loop.py with the configured
`memory_max_facts` as `cap`: when the log holds more than `cap` entries,
rewrite it keeping `items[-cap:]` — for `cap ≥ 1` the newest `cap` entries,
for `cap = 0` everything (the Python `[-0:]` slice). -/
def pruneIfNeeded (cap : Nat) (items : List AEntry) : List AEntry :=
  if items.length ≤ cap then items else sliceLast cap items

/-- Model of `append_memory` from src/ai_loop.py: strip; empty text or an existing
normal-form duplicate returns `False` with no write; otherwise append the
categorized entry to the log, prune to the configured cap, and return
`True`. -/
def appendMemory (cap : Nat) (now : Nat) (fact : String)
    (log : List AEntry) : Bool × List AEntry :=
  if stripS fact = "" || memoryExists (stripS fact) log then (false, log)
  else
    (true, pruneIfNeeded cap
      (log ++ [{ ts := now, fact := stripS fact,
                 category := categorizeFact (stripS fact) }]))

/-! ## select_relevant (src/ai_loop.py)

`select_relevant` scores each fact as `overlap + 0.1`, adding `0.3` for
preference-tagged facts, and compares scores as Python floats.  Every score
is `n + 0.1` or `n + 0.4` for a token-overlap count `n`, and on such values
the float comparisons performed by the code (ordering of scores, and
`base <= 0.1`) agree exactly with the ordering of the integers `10*n + 1`
and `10*n + 4`; scores are therefore modelled as those integers. -/

/-- The score of `select_relevant` for one fact, times ten:
`10 * overlap + 1`, plus `3` for preference facts. -/
def scoreOf (msg : String) (m : AEntry) : Nat :=
  10 * ((qTokensA msg).filter (fun w => (tokenize m.fact).contains w)).length
    + 1 + (if m.category = Cat.preference then 3 else 0)

/-- The comparison performed by `scored.sort(key=lambda x: x[0], reverse=True)`
in `select_relevant`: order by score alone (so Python's stable sort keeps
equal-scored facts in their original order). -/
def scoreGeB (a b : Nat × AEntry) : Bool :=
  b.1 ≤ a.1

/-- The selection loop of `select_relevant` over the sorted scored list:
skip a fact whose score is the zero-overlap baseline (`base <= 0.1`) once
the selection has reached the size of the preference shortlist, otherwise
append it, stopping as soon as `max_total` is reached. -/
def selLoop (prefLen maxTotal : Nat) :
    List (Nat × AEntry) → List AEntry → List AEntry
  | [], sel => sel
  | (s, m) :: rest, sel =>
    if s ≤ 1 && prefLen ≤ sel.length then selLoop prefLen maxTotal rest sel
    else if maxTotal ≤ (sel ++ [m]).length then sel ++ [m]
    else selLoop prefLen maxTotal rest (sel ++ [m])

/-- The trailing loop of `select_relevant`: append each of the (up to 3 most
recent) preference facts that is not already selected, while room remains. -/
def prefAppend (maxTotal : Nat) (pref : List AEntry) (sel : List AEntry) :
    List AEntry :=
  pref.foldl (fun acc p =>
    if !acc.contains p && acc.length < maxTotal then acc ++ [p] else acc) sel

/-- Model of `select_relevant(memory_items, user_msg, max_total)` from
src/ai_loop.py: score every fact, stable-sort descending by score, run the
selection loop, then top up with recent preference facts. -/
def selectRelevant (items : List AEntry) (msg : String) (maxTotal : Nat) :
    List AEntry :=
  if items = [] then []
  else
    let scored := items.map (fun m => (scoreOf msg m, m))
    let pref := sliceLast 3 (items.filter (fun m => m.category = Cat.preference))
    let sorted := sortBy scoreGeB scored
    prefAppend maxTotal pref (selLoop pref.length maxTotal sorted [])

example : selectRelevant
    [⟨1, "alpha ball", Cat.misc⟩, ⟨2, "gamma ball", Cat.misc⟩] "ball" 10 =
    [⟨1, "alpha ball", Cat.misc⟩, ⟨2, "gamma ball", Cat.misc⟩] := by decide

example : selectRelevant [⟨1, "alpha", Cat.misc⟩] "zzzz" 1 = [] := by decide

example : categorizeFact "I like tea" = Cat.preference := by decide

example : categorizeFact "the servo is mounted" = Cat.project := by decide

example : appendMemory 300 7 "  I LIKE  tea " [⟨1, "i like tea", Cat.preference⟩] =
    (false, [⟨1, "i like tea", Cat.preference⟩]) := by decide

example : normS "  I   LIKE tea " = "i like tea" := by decide

/-! ## Helper lemmas: characters -/

theorem char_toNat_ofNat (n : Nat) (h : n < 55296) : (Char.ofNat n).toNat = n := by
  have hv : n.isValidChar := Or.inl h
  rw [Char.ofNat, dif_pos hv]
  simp [Char.ofNatAux, Char.toNat, UInt32.toNat, UInt32.ofNatCore]

theorem pyLower_toNat (c : Char) :
    (pyLower c).toNat =
      if 65 ≤ c.toNat ∧ c.toNat ≤ 90 then c.toNat + 32 else c.toNat := by
  unfold pyLower
  by_cases h : 65 ≤ c.toNat ∧ c.toNat ≤ 90
  · rw [if_pos (by simp [h.1, h.2]), if_pos h, char_toNat_ofNat _ (by omega)]
  · rw [if_neg (by simpa [Bool.and_eq_true, decide_eq_true_eq] using h), if_neg h]

theorem pyIsWs_toNat (c : Char) :
    pyIsWs c = true ↔
      (c.toNat = 32 ∨ c.toNat = 9 ∨ c.toNat = 10 ∨ c.toNat = 13 ∨
       c.toNat = 11 ∨ c.toNat = 12) := by
  simp [pyIsWs, Bool.or_eq_true, decide_eq_true_eq, or_assoc]

/-- Lowercasing does not change whether a character is whitespace. -/
theorem pyIsWs_pyLower (c : Char) : pyIsWs (pyLower c) = pyIsWs c := by
  have h := pyLower_toNat c
  by_cases hc : 65 ≤ c.toNat ∧ c.toNat ≤ 90
  · rw [if_pos hc] at h
    have h1 : pyIsWs (pyLower c) = false := by
      rw [← Bool.not_eq_true, pyIsWs_toNat, h]; omega
    have h2 : pyIsWs c = false := by
      rw [← Bool.not_eq_true, pyIsWs_toNat]; omega
    rw [h1, h2]
  · rw [if_neg hc] at h
    have : pyLower c = c := by
      unfold pyLower
      rw [if_neg (by simpa [Bool.and_eq_true, decide_eq_true_eq] using hc)]
    rw [this]

/-- An alphanumeric character is not whitespace, even after lowercasing. -/
theorem pyLower_alnum_not_ws (c : Char) (h : pyIsAlnum c = true) :
    pyIsWs (pyLower c) = false := by
  have halnum : (48 ≤ c.toNat ∧ c.toNat ≤ 57) ∨ (65 ≤ c.toNat ∧ c.toNat ≤ 90) ∨
      (97 ≤ c.toNat ∧ c.toNat ≤ 122) := by
    simpa [pyIsAlnum, Bool.or_eq_true, decide_eq_true_eq, and_assoc, or_assoc] using h
  have hl := pyLower_toNat c
  rw [← Bool.not_eq_true, pyIsWs_toNat]
  by_cases hc : 65 ≤ c.toNat ∧ c.toNat ≤ 90
  · rw [if_pos hc] at hl; omega
  · rw [if_neg hc] at hl; omega

/-! ## Helper lemmas: splitting into words -/

theorem wsplit_ne_nil (sep : Char → Bool) (cs : List Char) :
    wsplit sep cs ≠ [] := by
  cases cs with
  | nil => simp [wsplit]
  | cons c cs =>
    rw [wsplit]
    split
    · simp
    · split <;> simp

/-- The splitting performed by `tokenize` (lowercase alphanumerics, blank
out the rest, split on whitespace) yields exactly the maximal alphanumeric
runs of the original text, lowercased. -/
theorem wsplit_map_tokenize (cs : List Char) :
    wsplit pyIsWs (cs.map (fun c => if pyIsAlnum c then pyLower c else ' ')) =
      (wsplit (fun c => !pyIsAlnum c) cs).map (List.map pyLower) := by
  induction cs with
  | nil => simp [wsplit]
  | cons c cs ih =>
    by_cases h : pyIsAlnum c
    · have hws : pyIsWs (pyLower c) = false := pyLower_alnum_not_ws c h
      rw [List.map_cons, if_pos h, wsplit, if_neg (by simp [hws]), ih]
      obtain ⟨t, ts, hts⟩ : ∃ t ts, wsplit (fun c => !pyIsAlnum c) cs = t :: ts := by
        cases hsp : wsplit (fun c => !pyIsAlnum c) cs with
        | nil => exact absurd hsp (wsplit_ne_nil _ _)
        | cons t ts => exact ⟨t, ts, rfl⟩
      rw [hts, wsplit, if_neg (by simp [h]), hts]
      simp
    · rw [List.map_cons, if_neg h, wsplit, if_pos (by simp [pyIsWs]), ih,
        wsplit, if_pos (by simp [h])]
      simp

theorem runsOf_map_tokenize (cs : List Char) :
    runsOf pyIsWs (cs.map (fun c => if pyIsAlnum c then pyLower c else ' ')) =
      (runsOf (fun c => !pyIsAlnum c) cs).map (List.map pyLower) := by
  unfold runsOf
  rw [wsplit_map_tokenize]
  induction (wsplit (fun c => !pyIsAlnum c) cs) with
  | nil => simp
  | cons t ts ih =>
    by_cases ht : t = []
    · subst ht; simpa using ih
    · have ht' : t.map pyLower ≠ [] := by simpa using ht
      simp only [List.map_cons, List.filter_cons]
      rw [if_pos (by simpa using ht'), if_pos (by simpa using ht)]
      simpa using ih

theorem wsplit_allWs (w : List Char) (hw : ∀ c ∈ w, pyIsWs c = true) :
    wsplit pyIsWs w = List.replicate (w.length + 1) [] := by
  induction w with
  | nil => simp [wsplit]
  | cons c cs ih =>
    rw [wsplit, if_pos (hw c (List.mem_cons_self c cs)),
      ih (fun d hd => hw d (List.mem_cons_of_mem c hd))]
    simp [List.replicate_succ]

theorem wsplit_append_ws (l w : List Char) (hw : ∀ c ∈ w, pyIsWs c = true) :
    wsplit pyIsWs (l ++ w) = wsplit pyIsWs l ++ List.replicate w.length [] := by
  induction l with
  | nil => simp [wsplit, wsplit_allWs w hw, List.replicate_succ]
  | cons c l ih =>
    by_cases h : pyIsWs c
    · rw [List.cons_append, wsplit, if_pos h, ih, wsplit, if_pos h,
        List.cons_append]
    · rw [List.cons_append, wsplit, if_neg (by simp [h]), ih]
      obtain ⟨t, ts, hts⟩ : ∃ t ts, wsplit pyIsWs l = t :: ts := by
        cases hsp : wsplit pyIsWs l with
        | nil => exact absurd hsp (wsplit_ne_nil _ _)
        | cons t ts => exact ⟨t, ts, rfl⟩
      rw [hts, wsplit, if_neg (by simp [h]), hts]
      simp

theorem wsplit_ws_append (w l : List Char) (hw : ∀ c ∈ w, pyIsWs c = true) :
    wsplit pyIsWs (w ++ l) = List.replicate w.length [] ++ wsplit pyIsWs l := by
  induction w with
  | nil => simp
  | cons c cs ih =>
    rw [List.cons_append, wsplit, if_pos (hw c (List.mem_cons_self c cs)),
      ih (fun d hd => hw d (List.mem_cons_of_mem c hd))]
    simp [List.replicate_succ]

theorem runsOf_append_ws (l w : List Char) (hw : ∀ c ∈ w, pyIsWs c = true) :
    runsOf pyIsWs (l ++ w) = runsOf pyIsWs l := by
  unfold runsOf
  rw [wsplit_append_ws l w hw, List.filter_append]
  have : (List.replicate w.length ([] : List Char)).filter (· ≠ []) = [] := by
    induction w.length with
    | zero => simp
    | succ n ih => simp [List.replicate_succ, ih]
  simp [this]

theorem runsOf_ws_append (w l : List Char) (hw : ∀ c ∈ w, pyIsWs c = true) :
    runsOf pyIsWs (w ++ l) = runsOf pyIsWs l := by
  unfold runsOf
  rw [wsplit_ws_append w l hw, List.filter_append]
  have : (List.replicate w.length ([] : List Char)).filter (· ≠ []) = [] := by
    induction w.length with
    | zero => simp
    | succ n ih => simp [List.replicate_succ, ih]
  simp [this]

/-! ## Helper lemmas: strip and normalization -/

/-- The character-list form of `stripS`. -/
def stripData (l : List Char) : List Char :=
  ((l.dropWhile pyIsWs).reverse.dropWhile pyIsWs).reverse

theorem stripS_data (s : String) : (stripS s).data = stripData s.data := rfl

theorem runsOf_stripData (l : List Char) :
    runsOf pyIsWs (stripData l) = runsOf pyIsWs l := by
  unfold stripData
  have h1 : runsOf pyIsWs (l.dropWhile pyIsWs) = runsOf pyIsWs l := by
    conv_rhs => rw [← List.takeWhile_append_dropWhile (p := pyIsWs) (l := l)]
    rw [runsOf_ws_append _ _ (fun c hc => List.mem_takeWhile_imp hc)]
  rw [← h1]
  set a := l.dropWhile pyIsWs with ha
  have h2 : a = ((a.reverse.dropWhile pyIsWs).reverse) ++
      (a.reverse.takeWhile pyIsWs).reverse := by
    conv_lhs => rw [← List.reverse_reverse a]
    conv_lhs => rw [← List.takeWhile_append_dropWhile (p := pyIsWs) (l := a.reverse)]
    rw [List.reverse_append]
  conv_rhs => rw [h2]
  rw [runsOf_append_ws _ _ (fun c hc => by
    rw [List.mem_reverse] at hc
    exact List.mem_takeWhile_imp hc)]

theorem pyWords_stripS (s : String) : pyWords (stripS s) = pyWords s := by
  unfold pyWords
  rw [stripS_data, runsOf_stripData]

theorem stripData_map_pyLower (l : List Char) :
    (l.map pyLower).dropWhile pyIsWs = (l.dropWhile pyIsWs).map pyLower := by
  rw [List.dropWhile_map]
  have : (pyIsWs ∘ pyLower) = pyIsWs := funext fun c => pyIsWs_pyLower c
  rw [this]

theorem stripData_lower (l : List Char) :
    stripData (l.map pyLower) = (stripData l).map pyLower := by
  unfold stripData
  rw [stripData_map_pyLower, ← List.map_reverse, stripData_map_pyLower,
    ← List.map_reverse]

/-- Model of `lowerStr` and `stripS` commute. -/
theorem lowerStr_stripS (s : String) : lowerStr (stripS s) = stripS (lowerStr s) := by
  show String.mk ((stripData s.data).map pyLower) = String.mk (stripData (s.data.map pyLower))
  exact congrArg String.mk (stripData_lower s.data).symm

/-- Normalization is blind to leading and trailing whitespace: the normal
form of a stripped text equals the normal form of the original. -/
theorem normS_stripS (s : String) : normS (stripS s) = normS s := by
  unfold normS
  rw [lowerStr_stripS, pyWords_stripS]

theorem string_eq_empty_iff (s : String) : s = "" ↔ s.data = [] := by
  constructor
  · intro h; rw [h]
  · intro h; cases s with
    | mk d => cases h; rfl

theorem runsOf_eq_nil_iff (l : List Char) :
    runsOf pyIsWs l = [] ↔ ∀ c ∈ l, pyIsWs c = true := by
  induction l with
  | nil => simp [runsOf, wsplit]
  | cons c cs ih =>
    by_cases h : pyIsWs c
    · rw [runsOf, wsplit, if_pos h]
      simp only [List.filter_cons]
      rw [if_neg (by simp)]
      simpa [runsOf, h] using ih
    · constructor
      · intro hr
        exfalso
        rw [runsOf, wsplit, if_neg (by simp [h])] at hr
        obtain ⟨t, ts, hts⟩ : ∃ t ts, wsplit pyIsWs cs = t :: ts := by
          cases hsp : wsplit pyIsWs cs with
          | nil => exact absurd hsp (wsplit_ne_nil _ _)
          | cons t ts => exact ⟨t, ts, rfl⟩
        rw [hts] at hr
        simp [List.filter_cons] at hr
      · intro hall
        exact absurd (hall c (List.mem_cons_self c cs)) (by simp [h])

theorem stripS_eq_empty_iff (s : String) :
    stripS s = "" ↔ ∀ c ∈ s.data, pyIsWs c = true := by
  rw [string_eq_empty_iff, stripS_data]
  unfold stripData
  rw [List.reverse_eq_nil_iff, List.dropWhile_eq_nil_iff]
  constructor
  · intro h c hc
    have hsplit := List.takeWhile_append_dropWhile (p := pyIsWs) (l := s.data)
    rw [← hsplit] at hc
    rcases List.mem_append.1 hc with hm | hm
    · exact List.mem_takeWhile_imp hm
    · exact h c (List.mem_reverse.2 hm)
  · intro hall c hc
    rw [List.mem_reverse] at hc
    exact hall c ((List.dropWhile_sublist pyIsWs).mem hc)

theorem intercalate_go_length_le (acc sep : String) (as : List String) :
    acc.length ≤ (String.intercalate.go acc sep as).length := by
  induction as generalizing acc with
  | nil => simp [String.intercalate.go]
  | cons a as ih =>
    rw [String.intercalate.go]
    calc acc.length ≤ (acc ++ sep ++ a).length := by
          simp [String.length_append]
          omega
    _ ≤ _ := ih _

theorem mem_runsOf_ne_nil (l : List Char) (t : List Char)
    (h : t ∈ runsOf pyIsWs l) : t ≠ [] := by
  unfold runsOf at h
  simpa using (List.mem_filter.1 h).2

/-- The normal form of a text is empty exactly when the text is entirely
whitespace, i.e. exactly when its stripped form is empty. -/
theorem normS_eq_empty_iff (s : String) : normS s = "" ↔ stripS s = "" := by
  rw [stripS_eq_empty_iff]
  unfold normS
  constructor
  · intro h c hc
    by_contra hws
    have hlow : ∀ c ∈ (lowerStr s).data, pyIsWs c = true → True := fun _ _ _ => trivial
    have hne : pyWords (lowerStr s) ≠ [] := by
      unfold pyWords
      intro hnil
      rw [List.map_eq_nil_iff] at hnil
      have := (runsOf_eq_nil_iff ((lowerStr s).data)).1 hnil
      have hmem : pyLower c ∈ (lowerStr s).data := by
        show pyLower c ∈ s.data.map pyLower
        exact List.mem_map_of_mem pyLower hc
      have := this (pyLower c) hmem
      rw [pyIsWs_pyLower] at this
      exact hws this
    obtain ⟨w, ws', hw⟩ : ∃ w ws', pyWords (lowerStr s) = w :: ws' := by
      cases hp : pyWords (lowerStr s) with
      | nil => exact absurd hp hne
      | cons w ws' => exact ⟨w, ws', rfl⟩
    rw [hw] at h
    have hwne : w ≠ "" := by
      have hwm : w ∈ pyWords (lowerStr s) := by
        rw [hw]; exact List.mem_cons_self w ws'
      unfold pyWords at hwm
      obtain ⟨t, ht, rfl⟩ := List.mem_map.1 hwm
      intro he
      have hnil : t = [] := by
        have := congrArg String.data he
        simpa using this
      exact (mem_runsOf_ne_nil _ t ht) hnil
    have hlen : w.length ≤ (String.intercalate " " (w :: ws')).length := by
      rw [String.intercalate]
      exact intercalate_go_length_le w " " ws'
    rw [h] at hlen
    apply hwne
    have hzero : ("" : String).length = 0 := rfl
    have hwl : w.length = w.data.length := rfl
    have hd : w.data.length = 0 := by omega
    exact (string_eq_empty_iff w).2 (List.length_eq_zero.1 hd)
  · intro hall
    have : pyWords (lowerStr s) = [] := by
      unfold pyWords
      rw [List.map_eq_nil_iff, runsOf_eq_nil_iff]
      intro c hc
      obtain ⟨d, hd, rfl⟩ := List.mem_map.1 (by simpa [lowerStr] using hc)
      rw [pyIsWs_pyLower]
      exact hall d hd
    rw [this]
    rfl

/-! ## Helper lemmas: order-preserving de-duplication -/

theorem mem_dedupAux [DecidableEq α] (seen : List α) (l : List α) (x : α) :
    x ∈ dedupAux seen l ↔ x ∈ l ∧ x ∉ seen := by
  induction l generalizing seen with
  | nil => simp [dedupAux]
  | cons y ys ih =>
    by_cases hy : y ∈ seen
    · simp only [dedupAux, if_pos hy, ih, List.mem_cons]
      constructor
      · rintro ⟨hx, hs⟩; exact ⟨Or.inr hx, hs⟩
      · rintro ⟨hx | hx, hs⟩
        · subst hx; exact absurd hy hs
        · exact ⟨hx, hs⟩
    · simp only [dedupAux, if_neg hy, List.mem_cons, ih]
      by_cases hxy : x = y
      · subst hxy; simp [hy]
      · simp [hxy]; try tauto

theorem nodup_dedupAux [DecidableEq α] (seen : List α) (l : List α) :
    (dedupAux seen l).Nodup := by
  induction l generalizing seen with
  | nil => simp [dedupAux]
  | cons y ys ih =>
    by_cases hy : y ∈ seen
    · simpa [dedupAux, if_pos hy] using ih seen
    · simp only [dedupAux, if_neg hy, List.nodup_cons]
      refine ⟨fun hmem => ?_, ih (y :: seen)⟩
      exact ((mem_dedupAux _ _ _).1 hmem).2 (List.mem_cons_self y seen)

theorem nodup_dedupFirst [DecidableEq α] (l : List α) : (dedupFirst l).Nodup :=
  nodup_dedupAux [] l

theorem mem_dedupFirst [DecidableEq α] (l : List α) (x : α) :
    x ∈ dedupFirst l ↔ x ∈ l := by
  unfold dedupFirst
  rw [mem_dedupAux]
  simp

theorem indexOf_cons_ne' [DecidableEq α] (l : List α) (a b : α) (h : a ≠ b) :
    (b :: l).indexOf a = l.indexOf a + 1 :=
  List.indexOf_cons_ne l (by exact fun hc => h hc.symm)

theorem dedupAux_indexOf_lt_iff [DecidableEq α] (seen : List α) (l : List α)
    (a b : α) (hab : a ≠ b) (ha : a ∈ dedupAux seen l) (hb : b ∈ dedupAux seen l) :
    ((dedupAux seen l).indexOf a < (dedupAux seen l).indexOf b ↔
      l.indexOf a < l.indexOf b) := by
  induction l generalizing seen with
  | nil => simp [dedupAux] at ha
  | cons y ys ih =>
    by_cases hy : y ∈ seen
    · rw [dedupAux, if_pos hy] at ha hb ⊢
      have hay : a ≠ y := fun h => ((mem_dedupAux _ _ _).1 ha).2 (h ▸ hy)
      have hby : b ≠ y := fun h => ((mem_dedupAux _ _ _).1 hb).2 (h ▸ hy)
      rw [ih seen ha hb, indexOf_cons_ne' _ _ _ hay, indexOf_cons_ne' _ _ _ hby]
      omega
    · rw [dedupAux, if_neg hy] at ha hb ⊢
      by_cases hay : a = y
      · subst hay
        have hby : b ≠ a := fun h => hab h.symm
        rw [List.indexOf_cons_self, indexOf_cons_ne' _ _ _ hby,
          List.indexOf_cons_self, indexOf_cons_ne' _ _ _ hab.symm]
        omega
      · by_cases hby : b = y
        · subst hby
          rw [List.indexOf_cons_self, indexOf_cons_ne' _ _ _ hay,
            List.indexOf_cons_self, indexOf_cons_ne' _ _ _ hay]
          omega
        · have hamem : a ∈ dedupAux (y :: seen) ys := by
            rcases List.mem_cons.1 ha with h | h
            · exact absurd h hay
            · exact h
          have hbmem : b ∈ dedupAux (y :: seen) ys := by
            rcases List.mem_cons.1 hb with h | h
            · exact absurd h hby
            · exact h
          rw [indexOf_cons_ne' _ _ _ hay, indexOf_cons_ne' _ _ _ hby,
            indexOf_cons_ne' _ _ _ hay, indexOf_cons_ne' _ _ _ hby]
          simpa [Nat.add_lt_add_iff_right] using ih (y :: seen) hamem hbmem

theorem indexOf_take [DecidableEq α] (l : List α) (k : Nat) (a : α)
    (ha : a ∈ l.take k) : (l.take k).indexOf a = l.indexOf a := by
  induction l generalizing k with
  | nil => simp at ha
  | cons y ys ih =>
    cases k with
    | zero => simp at ha
    | succ k =>
      rw [List.take_succ_cons] at ha ⊢
      by_cases hay : a = y
      · subst hay; rw [List.indexOf_cons_self, List.indexOf_cons_self]
      · have hmem : a ∈ ys.take k := by
          rcases List.mem_cons.1 ha with h | h
          · exact absurd h hay
          · exact h
        rw [indexOf_cons_ne' _ _ _ hay, indexOf_cons_ne' _ _ _ hay, ih k hmem]

/-! ## Helper lemmas: the stable descending sort -/

theorem mem_insBy (ge : α → α → Bool) (x : α) (l : List α) (y : α) :
    y ∈ insBy ge x l ↔ y = x ∨ y ∈ l := by
  induction l with
  | nil => simp [insBy]
  | cons z zs ih =>
    rw [insBy]
    split
    · simp
    · simp only [List.mem_cons, ih]
      tauto

theorem mem_sortBy (ge : α → α → Bool) (l : List α) (y : α) :
    y ∈ sortBy ge l ↔ y ∈ l := by
  induction l with
  | nil => simp [sortBy]
  | cons z zs ih =>
    rw [sortBy, mem_insBy]
    simp [ih]

theorem pairwise_insBy_scoreGeB (x : Nat × AEntry) (l : List (Nat × AEntry))
    (hl : l.Pairwise (fun p q => q.1 ≤ p.1)) :
    (insBy scoreGeB x l).Pairwise (fun p q => q.1 ≤ p.1) := by
  induction l with
  | nil => simp [insBy]
  | cons y ys ih =>
    rw [List.pairwise_cons] at hl
    rw [insBy]
    split
    · rename_i hge
      rw [List.pairwise_cons]
      refine ⟨fun q hq => ?_, List.pairwise_cons.2 hl⟩
      have hxy : y.1 ≤ x.1 := by simpa [scoreGeB] using hge
      rcases List.mem_cons.1 hq with rfl | hq'
      · exact hxy
      · exact Nat.le_trans (hl.1 q hq') hxy
    · rename_i hge
      have hyx : x.1 ≤ y.1 := by
        have : ¬ y.1 ≤ x.1 := by simpa [scoreGeB] using hge
        omega
      rw [List.pairwise_cons]
      refine ⟨fun q hq => ?_, ih hl.2⟩
      rcases (mem_insBy _ _ _ _).1 hq with rfl | hq'
      · exact hyx
      · exact hl.1 q hq'

theorem pairwise_sortBy_scoreGeB (l : List (Nat × AEntry)) :
    (sortBy scoreGeB l).Pairwise (fun p q => q.1 ≤ p.1) := by
  induction l with
  | nil => simp [sortBy]
  | cons x xs ih => exact pairwise_insBy_scoreGeB x _ ih

/-- Inserting into a sorted list commutes with filtering by an exact score:
the insertion point lies before every element of that score. -/
theorem filter_insBy_scoreGeB (x : Nat × AEntry) (l : List (Nat × AEntry))
    (hl : l.Pairwise (fun p q => q.1 ≤ p.1)) (s : Nat) :
    (insBy scoreGeB x l).filter (fun p => p.1 = s) =
      if x.1 = s then x :: l.filter (fun p => p.1 = s)
      else l.filter (fun p => p.1 = s) := by
  induction l with
  | nil =>
    rw [insBy]
    by_cases hxs : x.1 = s
    · simp [List.filter_cons, hxs]
    · simp [List.filter_cons, hxs]
  | cons y ys ih =>
    rw [List.pairwise_cons] at hl
    rw [insBy]
    split
    · rename_i hge
      by_cases hxs : x.1 = s
      · rw [if_pos hxs]
        simp [List.filter_cons, hxs]
      · rw [if_neg hxs]
        simp [List.filter_cons, hxs]
    · rename_i hge
      have hyx : x.1 < y.1 := by
        have : ¬ y.1 ≤ x.1 := by simpa [scoreGeB] using hge
        omega
      by_cases hxs : x.1 = s
      · rw [if_pos hxs]
        have hys : ¬ y.1 = s := by omega
        rw [List.filter_cons, List.filter_cons, if_neg (by simpa using hys),
          if_neg (by simpa using hys), ih hl.2, if_pos hxs]
      · rw [if_neg hxs]
        rw [List.filter_cons, List.filter_cons]
        by_cases hys : y.1 = s
        · rw [if_pos (by simpa using hys), if_pos (by simpa using hys),
            ih hl.2, if_neg hxs]
        · rw [if_neg (by simpa using hys), if_neg (by simpa using hys),
            ih hl.2, if_neg hxs]

/-- The stable sort of `select_relevant` preserves, for each score value,
the subsequence of facts carrying that score: ties keep their original
(chronological) order. -/
theorem filter_sortBy_scoreGeB (l : List (Nat × AEntry)) (s : Nat) :
    (sortBy scoreGeB l).filter (fun p => p.1 = s) =
      l.filter (fun p => p.1 = s) := by
  induction l with
  | nil => simp [sortBy]
  | cons x xs ih =>
    rw [sortBy, filter_insBy_scoreGeB x _ (pairwise_sortBy_scoreGeB xs) s,
      List.filter_cons]
    by_cases hxs : x.1 = s
    · rw [if_pos hxs, if_pos (by simpa using hxs), ih]
    · rw [if_neg hxs, if_neg (by simpa using hxs), ih]

/-- In a descending-sorted list the facts scoring above the baseline form a
prefix. -/
theorem filter_pos_eq_take (l : List (Nat × AEntry))
    (hl : l.Pairwise (fun p q => q.1 ≤ p.1)) :
    ∃ j, l.filter (fun p => 1 < p.1) = l.take j := by
  induction l with
  | nil => exact ⟨0, rfl⟩
  | cons x xs ih =>
    rw [List.pairwise_cons] at hl
    by_cases hx : 1 < x.1
    · obtain ⟨j, hj⟩ := ih hl.2
      refine ⟨j + 1, ?_⟩
      rw [List.filter_cons, if_pos (by simpa using hx), hj, List.take_succ_cons]
    · refine ⟨0, ?_⟩
      rw [List.filter_cons, if_neg (by simpa using hx), List.take_zero,
        List.filter_eq_nil_iff.2]
      intro q hq
      have := hl.1 q hq
      simp only [decide_eq_true_eq]
      omega

/-- Filtering a prefix yields a prefix of the filtered list. -/
theorem filter_take_eq_take_filter (l : List α) (p : α → Bool) (t : Nat) :
    ∃ n, (l.take t).filter p = (l.filter p).take n := by
  induction l generalizing t with
  | nil => exact ⟨0, by simp⟩
  | cons x xs ih =>
    cases t with
    | zero => exact ⟨0, by simp⟩
    | succ t =>
      obtain ⟨n, hn⟩ := ih t
      by_cases hx : p x
      · refine ⟨n + 1, ?_⟩
        rw [List.take_succ_cons, List.filter_cons, if_pos hx, hn,
          List.filter_cons, if_pos hx, List.take_succ_cons]
      · refine ⟨n, ?_⟩
        rw [List.take_succ_cons, List.filter_cons, if_neg hx, hn,
          List.filter_cons, if_neg hx]

/-! ## Helper lemmas: the selection loop -/

/-- With no preference facts the selection loop keeps exactly the
positively-scoring facts in sorted order, up to the budget. -/
theorem selLoop_zero_eq (maxTotal : Nat) (l : List (Nat × AEntry))
    (sel : List AEntry) (hsel : sel.length < maxTotal) :
    selLoop 0 maxTotal l sel =
      sel ++ ((l.filter (fun p => 1 < p.1)).map (·.2)).take
        (maxTotal - sel.length) := by
  induction l generalizing sel with
  | nil => simp [selLoop]
  | cons p rest ih =>
    obtain ⟨s, m⟩ := p
    by_cases hs : s ≤ 1
    · have hcond : ((decide (s ≤ 1) && decide (0 ≤ sel.length)) = true) := by
        simp [hs]
      have hfilt : ¬ ((fun p : Nat × AEntry => decide (1 < p.1)) (s, m) = true) := by
        simp
        omega
      rw [selLoop, if_pos hcond, ih sel hsel, List.filter_cons, if_neg hfilt]
    · have hcond : ¬ ((decide (s ≤ 1) && decide (0 ≤ sel.length)) = true) := by
        simp [hs]
      have hfilt : ((fun p : Nat × AEntry => decide (1 < p.1)) (s, m) = true) := by
        simp
        omega
      rw [selLoop, if_neg hcond, List.filter_cons, if_pos hfilt]
      by_cases hfull : maxTotal ≤ (sel ++ [m]).length
      · rw [if_pos hfull]
        have hlen : maxTotal = sel.length + 1 := by
          simp only [List.length_append, List.length_cons, List.length_nil] at hfull
          omega
        rw [List.map_cons]
        rw [show maxTotal - sel.length = 1 by omega]
        simp
      · rw [if_neg hfull]
        have hlen2 : (sel ++ [m]).length < maxTotal := by omega
        rw [ih _ hlen2, List.map_cons]
        have : maxTotal - sel.length = (maxTotal - (sel ++ [m]).length) + 1 := by
          simp only [List.length_append, List.length_cons, List.length_nil]
          omega
        rw [this, List.take_succ_cons, List.append_assoc]
        rfl

/-- When every scored pair is at the zero-overlap baseline the selection
loop (with an empty preference shortlist) selects nothing. -/
theorem selLoop_zero_all_base (maxTotal : Nat) (l : List (Nat × AEntry))
    (sel : List AEntry) (hall : ∀ p ∈ l, p.1 ≤ 1) :
    selLoop 0 maxTotal l sel = sel := by
  induction l with
  | nil => rfl
  | cons p rest ih =>
    rw [selLoop, if_pos (by
      simp only [Bool.and_eq_true, decide_eq_true_eq]
      exact ⟨hall p (List.mem_cons_self p rest), Nat.zero_le _⟩)]
    exact ih (fun q hq => hall q (List.mem_cons_of_mem p hq))

theorem prefAppend_nil (maxTotal : Nat) (sel : List AEntry) :
    prefAppend maxTotal [] sel = sel := rfl

/-! ## Claim C7: loader robustness -/

/-- Claim C7: Store initialization never fails on any log content: the load
loop is a total function that yields exactly the decodable stripped lines,
in file order, silently skipping empty lines and lines the parser rejects
(in particular a mid-line-truncated final line, on which the parser
returns `none`). -/
theorem claim_C7 (decode : String → Option α) (lines : List String) :
    loadCache decode lines =
      ((lines.map stripS).filter (fun l => l ≠ "")).filterMap decode := by
  induction lines with
  | nil => rfl
  | cons line rest ih =>
    rw [loadCache, List.map_cons, List.filter_cons]
    by_cases he : stripS line = ""
    · rw [if_pos he, if_neg (by simpa using he)]
      exact ih
    · rw [if_neg he, if_pos (by simpa using he), List.filterMap_cons]
      cases hd : decode (stripS line) with
      | none => simpa [hd] using ih
      | some e => simpa [hd] using ih

/-! ## Claim C8: recent-listing contract -/

/-- The cache obtained by a sequence of `add_fact` calls (with successful
writes) starting from a given store; each pair carries the timestamp and
the raw text of one call. -/
def foldAdds (pairs : List (Nat × String)) (st : Store) : Store :=
  pairs.foldl (fun acc p => (addFact true p.1 p.2 acc).2) st

theorem foldAdds_cache (pairs : List (Nat × String)) (st : Store)
    (h : ∀ p ∈ pairs, stripS p.2 ≠ "") :
    (foldAdds pairs st).cache =
      st.cache ++ pairs.map (fun p => Entry.mk p.1 (stripS p.2)) := by
  induction pairs generalizing st with
  | nil => simp [foldAdds]
  | cons q qs ih =>
    have hq : stripS q.2 ≠ "" := h q (List.mem_cons_self q qs)
    have hqs : ∀ p ∈ qs, stripS p.2 ≠ "" := fun p hp => h p (List.mem_cons_of_mem q hp)
    show (foldAdds qs ((addFact true q.1 q.2 st).2)).cache = _
    rw [ih _ hqs]
    unfold addFact
    rw [if_neg hq, if_pos rfl]
    simp

/-- Claim C8, counterexample: The claim quantifies over every limit `n ≥ 0`,
but `list_recent(0)` returns the *whole* store (`self._cache[-0:]` is the
full list in Python), not "up to 0" facts. -/
theorem claim_C8_counterexample :
    listFacts 0 [Entry.mk 0 "alpha"] = [Entry.mk 0 "alpha"] ∧
    ¬ (listFacts 0 [Entry.mk 0 "alpha"]).length ≤ 0 := by decide

/-- Claim C8, amended: For every limit `n ≥ 1`, after any sequence of
successful adds (of non-whitespace texts) `list_facts n` returns exactly
the last `min n (number of adds)` added facts, stripped, in chronological
insertion order; for `n = 0` the Python slice artifact returns the whole
store instead.  `list_facts` is a pure read (a function of the cache
alone). -/
theorem claim_C8_amended (pairs : List (Nat × String)) (n : Nat)
    (hne : ∀ p ∈ pairs, stripS p.2 ≠ "") (hn : 1 ≤ n) :
    (foldAdds pairs ⟨[], []⟩).cache.map (·.fact) =
      pairs.map (fun p => stripS p.2) ∧
    (listFacts n (foldAdds pairs ⟨[], []⟩).cache).map (·.fact) =
      (pairs.map (fun p => stripS p.2)).drop (pairs.length - n) ∧
    (listFacts n (foldAdds pairs ⟨[], []⟩).cache).length =
      min n pairs.length := by
  have hc : (foldAdds pairs ⟨[], []⟩).cache =
      pairs.map (fun p => Entry.mk p.1 (stripS p.2)) := by
    rw [foldAdds_cache pairs _ hne]
    rfl
  have hlen : (foldAdds pairs ⟨[], []⟩).cache.length = pairs.length := by
    rw [hc, List.length_map]
  refine ⟨?_, ?_, ?_⟩
  · rw [hc, List.map_map]
    rfl
  · unfold listFacts sliceLast
    rw [if_neg (by omega), List.map_drop, hc, List.length_map, List.map_map]
    rfl
  · unfold listFacts sliceLast
    rw [if_neg (by omega), List.length_drop, hlen]
    omega

/-- Witness for C8 (amended) at a concrete store of three adds. -/
theorem claim_C8_amended_witness :
    (foldAdds [(1, "a b"), (2, "c"), (3, " d ")] ⟨[], []⟩).cache.map (·.fact) =
      [(1, "a b"), (2, "c"), (3, " d ")].map (fun p => stripS p.2) ∧
    (listFacts 2 (foldAdds [(1, "a b"), (2, "c"), (3, " d ")] ⟨[], []⟩).cache).map
        (·.fact) =
      ([(1, "a b"), (2, "c"), (3, " d ")].map (fun p => stripS p.2)).drop
        ([(1, "a b"), (2, "c"), (3, " d ")].length - 2) ∧
    (listFacts 2 (foldAdds [(1, "a b"), (2, "c"), (3, " d ")] ⟨[], []⟩).cache).length =
      min 2 [(1, "a b"), (2, "c"), (3, " d ")].length :=
  claim_C8_amended [(1, "a b"), (2, "c"), (3, " d ")] 2 (by decide) (by decide)

/-! ## Claim C10: retrieval output uniqueness -/

/-- Claim C10: `MemoryStore.retrieve` never returns the same fact text twice,
and among the returned texts the order is the order of first occurrence in
the candidate list (best-scored first, or the recency fallback): for any
two distinct returned texts, their relative order in the output matches
the order of their first occurrences (`indexOf`) among the candidates. -/
theorem claim_C10 (cache : List Entry) (q : String) (k : Nat) :
    (retrieve cache q k).Nodup ∧
    ∀ a b : String, a ∈ retrieve cache q k → b ∈ retrieve cache q k →
      a ≠ b →
      ((retrieve cache q k).indexOf a < (retrieve cache q k).indexOf b ↔
        (topCand cache q k).indexOf a < (topCand cache q k).indexOf b) := by
  constructor
  · exact List.Nodup.sublist (List.take_sublist _ _) (nodup_dedupFirst _)
  · intro a b ha hb hab
    unfold retrieve at ha hb ⊢
    have ha' : a ∈ dedupFirst (topCand cache q k) := List.take_subset _ _ ha
    have hb' : b ∈ dedupFirst (topCand cache q k) := List.take_subset _ _ hb
    rw [indexOf_take _ _ _ ha, indexOf_take _ _ _ hb]
    exact dedupAux_indexOf_lt_iff [] _ a b hab ha' hb'

/-- Witness for C10 at a store whose recency fallback repeats a text. -/
theorem claim_C10_witness :
    (retrieve [⟨0, "alpha"⟩, ⟨1, "alpha"⟩, ⟨2, "beta"⟩] "zzzzz" 3).Nodup ∧
    ((retrieve [⟨0, "alpha"⟩, ⟨1, "alpha"⟩, ⟨2, "beta"⟩] "zzzzz" 3).indexOf "alpha" <
        (retrieve [⟨0, "alpha"⟩, ⟨1, "alpha"⟩, ⟨2, "beta"⟩] "zzzzz" 3).indexOf "beta" ↔
      (topCand [⟨0, "alpha"⟩, ⟨1, "alpha"⟩, ⟨2, "beta"⟩] "zzzzz" 3).indexOf "alpha" <
        (topCand [⟨0, "alpha"⟩, ⟨1, "alpha"⟩, ⟨2, "beta"⟩] "zzzzz" 3).indexOf "beta") :=
  ⟨(claim_C10 [⟨0, "alpha"⟩, ⟨1, "alpha"⟩, ⟨2, "beta"⟩] "zzzzz" 3).1,
   (claim_C10 [⟨0, "alpha"⟩, ⟨1, "alpha"⟩, ⟨2, "beta"⟩] "zzzzz" 3).2 "alpha" "beta"
     (by decide) (by decide) (by decide)⟩

/-! ## Claim C4: query tokenization -/

theorem lowerStr_length (s : String) : (lowerStr s).length = s.length := by
  show (s.data.map pyLower).length = s.data.length
  rw [List.length_map]

/-- Claim C4, counterexample: The simplest variant in the code,
`MemoryStore.retrieve`, does not tokenize as the claim states: it splits on
whitespace only (punctuation stays attached: `"tea?"` is a token) and it
drops tokens of length ≤ 3, not ≤ 2 (`"big"`, `"cat"` are dropped). -/
theorem claim_C4_counterexample :
    qWordsR "big cat" = [] ∧
    specTokensLen2 "big cat" = ["big", "cat"] ∧
    qWordsR "tea? tea?" = ["tea?"] ∧
    specTokensLen2 "tea? tea?" = ["tea"] := by decide

/-- Claim C4, amended: The richer variant, `tokenize` in src/ai_loop.py (the
tokenizer `select_relevant` uses), conforms to the claim: it equals
splitting the query on non-alphanumeric boundaries, lowercasing, and
dropping stop words, and `select_relevant` collapses the tokens into a
duplicate-free set.  The simplest variant, the query side of
`MemoryStore.retrieve`, instead splits on whitespace only and drops tokens
of length ≤ 3: every query word it keeps is the lowercase image of a
whitespace-delimited word of length at least 4. -/
theorem claim_C4_amended :
    (∀ msg : String, tokenize msg = specTokens msg) ∧
    (∀ msg : String, (qTokensA msg).Nodup) ∧
    (∀ (msg : String) (w : String), w ∈ qTokensA msg ↔ w ∈ tokenize msg) ∧
    (∀ (q w : String), w ∈ qWordsR q →
      3 < w.length ∧ ∃ v ∈ pyWords q, w = lowerStr v ∧ 3 < v.length) := by
  refine ⟨?_, ?_, ?_, ?_⟩
  · intro msg
    unfold tokenize specTokens
    rw [runsOf_map_tokenize, List.map_map]
    rfl
  · intro msg
    exact nodup_dedupFirst _
  · intro msg w
    exact mem_dedupFirst _ w
  · intro q w hw
    unfold qWordsR at hw
    rw [mem_dedupFirst] at hw
    obtain ⟨v, hv, rfl⟩ := List.mem_map.1 hw
    have hv' := List.mem_filter.1 hv
    have hlen : 3 < v.length := by simpa using hv'.2
    exact ⟨by rw [lowerStr_length]; exact hlen, v, hv'.1, rfl, hlen⟩

/-- Witness for C4 (amended) at a concrete query. -/
theorem claim_C4_witness :
    tokenize "Do you like tea?" = specTokens "Do you like tea?" ∧
    (qTokensA "Do you like tea?").Nodup ∧
    ("like" ∈ qTokensA "Do you like tea?" ↔ "like" ∈ tokenize "Do you like tea?") ∧
    (3 < ("tea?" : String).length ∧
      ∃ v ∈ pyWords "give Tea? now", ("tea?" : String) = lowerStr v ∧ 3 < v.length) :=
  ⟨claim_C4_amended.1 "Do you like tea?",
   claim_C4_amended.2.1 "Do you like tea?",
   claim_C4_amended.2.2.1 "Do you like tea?" "like",
   claim_C4_amended.2.2.2 "give Tea? now" "tea?" (by decide)⟩

/-! ## Claim C2: tie-break in select_relevant -/

theorem filter_fst_scored (items : List AEntry) (msg : String) (s : Nat) :
    (items.map (fun m => (scoreOf msg m, m))).filter (fun p => p.1 = s) =
      (items.filter (fun m => scoreOf msg m = s)).map
        (fun m => (scoreOf msg m, m)) := by
  induction items with
  | nil => rfl
  | cons m ms ih =>
    rw [List.map_cons, List.filter_cons, List.filter_cons]
    by_cases hs : scoreOf msg m = s
    · rw [if_pos (by simpa using hs), if_pos (by simpa using hs),
        List.map_cons, ih]
    · rw [if_neg (by simpa using hs), if_neg (by simpa using hs), ih]

theorem filter_score_map_snd (L : List (Nat × AEntry)) (msg : String) (s : Nat)
    (hinv : ∀ p ∈ L, p.1 = scoreOf msg p.2) :
    (L.map (·.2)).filter (fun m => scoreOf msg m = s) =
      (L.filter (fun p => p.1 = s)).map (·.2) := by
  induction L with
  | nil => rfl
  | cons p ps ih =>
    have hp : p.1 = scoreOf msg p.2 := hinv p (List.mem_cons_self p ps)
    have hps : ∀ q ∈ ps, q.1 = scoreOf msg q.2 :=
      fun q hq => hinv q (List.mem_cons_of_mem p hq)
    rw [List.map_cons, List.filter_cons, List.filter_cons]
    by_cases hs : scoreOf msg p.2 = s
    · rw [if_pos (by simpa using hs), if_pos (by simpa [hp] using hs),
        List.map_cons, ih hps]
    · rw [if_neg (by simpa using hs), if_neg (by simpa [hp] using hs), ih hps]

/-- With no preference facts, `select_relevant` reduces to: stable-sort the
scored facts, keep the positive-overlap ones, truncate. -/
theorem selectRelevant_no_pref (items : List AEntry) (msg : String) (k : Nat)
    (hitems : items ≠ [])
    (hpref : items.filter (fun m => m.category = Cat.preference) = [])
    (hk : 1 ≤ k) :
    selectRelevant items msg k =
      (((sortBy scoreGeB (items.map (fun m => (scoreOf msg m, m)))).filter
          (fun p => 1 < p.1)).map (·.2)).take k := by
  unfold selectRelevant
  rw [if_neg hitems]
  show prefAppend k (sliceLast 3 (items.filter (fun m => m.category = Cat.preference)))
      (selLoop (sliceLast 3 (items.filter (fun m => m.category = Cat.preference))).length k
        (sortBy scoreGeB (items.map (fun m => (scoreOf msg m, m)))) []) = _
  rw [hpref]
  show prefAppend k [] (selLoop 0 k
      (sortBy scoreGeB (items.map (fun m => (scoreOf msg m, m)))) []) = _
  rw [prefAppend_nil, selLoop_zero_eq k _ [] (by simpa using hk)]
  simp

/-- Claim C2, counterexample: Two facts with equal relevance scores, no
category boost involved: `select_relevant` returns them with the *older*
fact first (Python's stable sort keeps input order on ties), so the more
recently added fact does not rank strictly higher as claimed. -/
theorem claim_C2_counterexample :
    scoreOf "ball" (AEntry.mk 1 "alpha ball" Cat.misc) =
      scoreOf "ball" (AEntry.mk 2 "gamma ball" Cat.misc) ∧
    selectRelevant [AEntry.mk 1 "alpha ball" Cat.misc,
        AEntry.mk 2 "gamma ball" Cat.misc] "ball" 10 =
      [AEntry.mk 1 "alpha ball" Cat.misc, AEntry.mk 2 "gamma ball" Cat.misc] ∧
    ¬ ((selectRelevant [AEntry.mk 1 "alpha ball" Cat.misc,
          AEntry.mk 2 "gamma ball" Cat.misc] "ball" 10).indexOf
            (AEntry.mk 2 "gamma ball" Cat.misc) <
        (selectRelevant [AEntry.mk 1 "alpha ball" Cat.misc,
          AEntry.mk 2 "gamma ball" Cat.misc] "ball" 10).indexOf
            (AEntry.mk 1 "alpha ball" Cat.misc)) := by decide

/-- Claim C2, amended: The tie-break of `select_relevant` is defined and
stable, but it favours the *older* fact: for stores without preference
facts, the facts of any fixed score value appear in the output as an
initial segment of their chronological (insertion-order) subsequence — so
among equal-scored facts the earlier-added one ranks higher. -/
theorem claim_C2_amended (items : List AEntry) (msg : String) (k s : Nat)
    (hnp : ∀ m ∈ items, m.category ≠ Cat.preference) (hk : 1 ≤ k) :
    ∃ n, (selectRelevant items msg k).filter (fun m => scoreOf msg m = s) =
      (items.filter (fun m => scoreOf msg m = s)).take n := by
  by_cases hitems : items = []
  · subst hitems
    exact ⟨0, by simp [selectRelevant]⟩
  · have hpref : items.filter (fun m => m.category = Cat.preference) = [] :=
      List.filter_eq_nil_iff.2 (fun m hm => by simpa using hnp m hm)
    rw [selectRelevant_no_pref items msg k hitems hpref hk]
    set sorted := sortBy scoreGeB (items.map (fun m => (scoreOf msg m, m)))
      with hsorted
    have hinv : ∀ p ∈ sorted, p.1 = scoreOf msg p.2 := by
      intro p hp
      rw [hsorted, mem_sortBy] at hp
      obtain ⟨m, _, rfl⟩ := List.mem_map.1 hp
      rfl
    obtain ⟨j, hj⟩ := filter_pos_eq_take sorted (pairwise_sortBy_scoreGeB _)
    rw [hj, ← List.map_take, List.take_take]
    have hinv2 : ∀ p ∈ sorted.take (min k j), p.1 = scoreOf msg p.2 :=
      fun p hp => hinv p (List.take_subset _ _ hp)
    rw [filter_score_map_snd _ msg s hinv2]
    obtain ⟨n, hn⟩ := filter_take_eq_take_filter sorted
      (fun p => p.1 = s) (min k j)
    rw [hn, filter_sortBy_scoreGeB, filter_fst_scored, ← List.map_take,
      List.map_map]
    refine ⟨n, ?_⟩
    rw [show ((fun x : Nat × AEntry => x.2) ∘ fun m => (scoreOf msg m, m)) = id
      from rfl, List.map_id]

/-- Witness for C2 (amended) at the two tied facts of the counterexample. -/
theorem claim_C2_amended_witness :
    ∃ n, (selectRelevant [AEntry.mk 1 "alpha ball" Cat.misc,
        AEntry.mk 2 "gamma ball" Cat.misc] "ball" 10).filter
          (fun m => scoreOf "ball" m = 11) =
      ([AEntry.mk 1 "alpha ball" Cat.misc,
        AEntry.mk 2 "gamma ball" Cat.misc].filter
          (fun m => scoreOf "ball" m = 11)).take n :=
  claim_C2_amended [AEntry.mk 1 "alpha ball" Cat.misc,
    AEntry.mk 2 "gamma ball" Cat.misc] "ball" 10 11 (by decide) (by decide)

/-! ## Claim C3: score-zero exclusion and recency fallback -/

theorem scoredR_eq_nil (cache : List Entry) (q : String)
    (h : ∀ e ∈ cache, ovR q e = 0) : scoredR cache q = [] := by
  induction cache with
  | nil => rfl
  | cons e es ih =>
    have he : ovR q e = 0 := h e (List.mem_cons_self e es)
    have hes : ∀ d ∈ es, ovR q d = 0 := fun d hd => h d (List.mem_cons_of_mem e hd)
    unfold scoredR
    rw [List.filterMap_cons]
    simp only [he]
    rw [if_neg (by omega)]
    exact ih hes

theorem mem_scoredR (cache : List Entry) (q : String) (p : Nat × String)
    (hp : p ∈ scoredR cache q) :
    ∃ e ∈ cache, 0 < ovR q e ∧ p = (ovR q e, e.fact) := by
  unfold scoredR at hp
  obtain ⟨e, he, hcond⟩ := List.mem_filterMap.1 hp
  simp only [] at hcond
  by_cases hov : 0 < ovR q e
  · rw [if_pos hov] at hcond
    exact ⟨e, he, hov, (Option.some_injective _ hcond).symm⟩
  · rw [if_neg hov] at hcond
    exact absurd hcond (by simp)

/-- Claim C3, counterexample: A store with one fact and a query with no
overlap: the claim requires `select_relevant(Q, 1)` to fall back to the one
most-recently-added fact, but the code selects nothing. -/
theorem claim_C3_counterexample :
    selectRelevant [AEntry.mk 1 "alpha" Cat.misc] "zzzz" 1 = [] ∧
    ¬ (selectRelevant [AEntry.mk 1 "alpha" Cat.misc] "zzzz" 1 =
        [AEntry.mk 1 "alpha" Cat.misc]) := by decide

/-- Claim C3, amended: `select_relevant` has no recency fallback: with no
preference facts and no positive token overlap it returns the empty
selection.  The recency fallback lives in `MemoryStore.retrieve`, and only
fires when *no* fact scores above zero — in that case `retrieve` returns
the de-duplicated texts of the `k` most-recently-added facts; when at
least one fact scores above zero there is no topping-up: every returned
text is the text of a positively-scoring fact. -/
theorem claim_C3_amended :
    (∀ (items : List AEntry) (q : String) (k : Nat),
      (∀ m ∈ items, m.category ≠ Cat.preference) →
      (∀ m ∈ items, scoreOf q m ≤ 1) →
      selectRelevant items q k = []) ∧
    (∀ (cache : List Entry) (q : String) (k : Nat),
      (∀ e ∈ cache, ovR q e = 0) →
      retrieve cache q k =
        (dedupFirst ((sliceLast k cache).map (·.fact))).take k) ∧
    (∀ (cache : List Entry) (q : String) (k : Nat) (t : String),
      (∃ e ∈ cache, 0 < ovR q e) → t ∈ retrieve cache q k →
      ∃ e ∈ cache, 0 < ovR q e ∧ e.fact = t) := by
  refine ⟨?_, ?_, ?_⟩
  · intro items q k hnp hbase
    by_cases hitems : items = []
    · subst hitems; rfl
    · have hpref : items.filter (fun m => m.category = Cat.preference) = [] :=
        List.filter_eq_nil_iff.2 (fun m hm => by simpa using hnp m hm)
      unfold selectRelevant
      rw [if_neg hitems]
      show prefAppend k (sliceLast 3 (items.filter (fun m => m.category = Cat.preference)))
          (selLoop (sliceLast 3 (items.filter (fun m => m.category = Cat.preference))).length k
            (sortBy scoreGeB (items.map (fun m => (scoreOf q m, m)))) []) = _
      rw [hpref]
      show prefAppend k [] (selLoop 0 k
          (sortBy scoreGeB (items.map (fun m => (scoreOf q m, m)))) []) = _
      rw [prefAppend_nil, selLoop_zero_all_base]
      intro p hp
      rw [mem_sortBy] at hp
      obtain ⟨m, hm, rfl⟩ := List.mem_map.1 hp
      exact hbase m hm
  · intro cache q k hzero
    unfold retrieve topCand
    rw [scoredR_eq_nil cache q hzero]
    simp [sortBy]
  · intro cache q k t hpos ht
    have hk : 0 < k := by
      by_contra hk0
      have : k = 0 := by omega
      subst this
      simp [retrieve] at ht
    unfold retrieve at ht
    have ht' : t ∈ topCand cache q k :=
      (mem_dedupFirst _ t).1 (List.take_subset _ _ ht)
    obtain ⟨e0, he0, hov0⟩ := hpos
    have hscored : (ovR q e0, e0.fact) ∈ scoredR cache q := by
      unfold scoredR
      exact List.mem_filterMap.2 ⟨e0, he0, by simp only []; rw [if_pos hov0]⟩
    have hsorted_ne : sortBy tupGe (scoredR cache q) ≠ [] := by
      intro hnil
      have := (mem_sortBy tupGe (scoredR cache q) (ovR q e0, e0.fact)).2 hscored
      rw [hnil] at this
      simp at this
    have htop0 : ((sortBy tupGe (scoredR cache q)).take k).map (·.2) ≠ [] := by
      intro hnil
      rw [List.map_eq_nil_iff, List.take_eq_nil_iff] at hnil
      rcases hnil with h | h
      · omega
      · exact hsorted_ne h
    unfold topCand at ht'
    rw [if_neg htop0] at ht'
    obtain ⟨p, hpmem, rfl⟩ := List.mem_map.1 ht'
    have hp2 : p ∈ scoredR cache q :=
      (mem_sortBy _ _ _).1 (List.take_subset _ _ hpmem)
    obtain ⟨e, he, hov, rfl⟩ := mem_scoredR cache q p hp2
    exact ⟨e, he, hov, rfl⟩

/-- Witness for C3 (amended) at concrete stores. -/
theorem claim_C3_witness :
    selectRelevant [AEntry.mk 1 "alpha" Cat.misc] "qqqq" 5 = [] ∧
    retrieve [Entry.mk 1 "alpha", Entry.mk 2 "beta"] "qqqq" 2 =
      (dedupFirst ((sliceLast 2 [Entry.mk 1 "alpha", Entry.mk 2 "beta"]).map
        (·.fact))).take 2 ∧
    (∃ e ∈ [Entry.mk 1 "alpha ball"], 0 < ovR "ball" e ∧
      e.fact = "alpha ball") :=
  ⟨claim_C3_amended.1 [AEntry.mk 1 "alpha" Cat.misc] "qqqq" 5 (by decide)
      (by decide),
   claim_C3_amended.2.1 [Entry.mk 1 "alpha", Entry.mk 2 "beta"] "qqqq" 2
      (by decide),
   claim_C3_amended.2.2 [Entry.mk 1 "alpha ball"] "ball" 1 "alpha ball"
      ⟨Entry.mk 1 "alpha ball", by decide, by decide⟩ (by decide)⟩

/-! ## Claim C1: duplicate freedom -/

theorem memoryExists_iff (f : String) (L : List AEntry) :
    memoryExists f L = true ↔ ∃ e ∈ L, normS e.fact = normS f := by
  unfold memoryExists
  rw [List.any_eq_true]
  simp

theorem prune_sublist (cap : Nat) (X : List AEntry) :
    List.Sublist (pruneIfNeeded cap X) X := by
  unfold pruneIfNeeded sliceLast
  split
  · exact List.Sublist.refl X
  · split
    · exact List.Sublist.refl X
    · exact List.drop_sublist _ X

theorem mem_prune_last (cap : Nat) (L : List AEntry) (e : AEntry) :
    e ∈ pruneIfNeeded cap (L ++ [e]) := by
  unfold pruneIfNeeded
  split
  · exact List.mem_append_right _ (List.mem_singleton.2 rfl)
  · unfold sliceLast
    split
    · exact List.mem_append_right _ (List.mem_singleton.2 rfl)
    · rename_i hlen hcap
      have hle : (L ++ [e]).length - cap ≤ L.length := by
        simp only [List.length_append, List.length_cons, List.length_nil]
        omega
      rw [List.drop_append_of_le_length hle]
      exact List.mem_append_right _ (List.mem_singleton.2 rfl)

/-- Claim C1, counterexample: `MemoryStore.add_fact` performs no duplicate
check at all: adding the same text twice (here even verbatim, up to
casing) stores two facts with the same normal form, and the second call
writes instead of reporting a duplicate. -/
theorem claim_C1_counterexample :
    ((addFact true 2 "I LIKE TEA"
        ((addFact true 1 "I like tea" ⟨[], []⟩).2)).2).cache =
      [Entry.mk 1 "I like tea", Entry.mk 2 "I LIKE TEA"] ∧
    normS "I like tea" = normS "I LIKE TEA" ∧
    ¬ ((addFact true 2 "I LIKE TEA"
        ((addFact true 1 "I like tea" ⟨[], []⟩).2)).2).cache.length = 1 := by
  decide

/-- Claim C1, amended: Duplicate-freedom holds for the ai_loop append path,
not for `MemoryStore.add_fact`: `append_memory` preserves the invariant
that no two stored facts share a normal form, and a second call with any
casing/whitespace variant of a just-appended (or already present) text
reports `False` (Duplicate) and leaves the log unchanged. -/
theorem claim_C1_amended :
    (∀ (cap t : Nat) (f : String) (L : List AEntry),
      (L.map (fun e => normS e.fact)).Nodup →
      (((appendMemory cap t f L).2).map (fun e => normS e.fact)).Nodup) ∧
    (∀ (cap t1 t2 : Nat) (L0 : List AEntry) (f g : String),
      normS f = normS g →
      appendMemory cap t2 g (appendMemory cap t1 f L0).2 =
        (false, (appendMemory cap t1 f L0).2)) := by
  constructor
  · intro cap t f L hnodup
    unfold appendMemory
    split
    · exact hnodup
    · rename_i hcond
      rw [Bool.or_eq_true, not_or] at hcond
      obtain ⟨hne, hnex⟩ := hcond
      have hnex' : ∀ e ∈ L, normS e.fact ≠ normS (stripS f) := by
        intro e he heq
        exact hnex ((memoryExists_iff _ _).2 ⟨e, he, heq⟩)
      apply List.Nodup.sublist ((prune_sublist cap _).map _)
      rw [List.map_append]
      rw [List.nodup_append]
      refine ⟨hnodup, List.nodup_singleton _, ?_⟩
      intro a ha hb
      obtain ⟨e, he, rfl⟩ := List.mem_map.1 ha
      have heq : normS e.fact = normS (stripS f) := by simpa using hb
      exact hnex' e he heq
  · intro cap t1 t2 L0 f g hng
    have hnorm' : normS (stripS f) = normS (stripS g) := by
      rw [normS_stripS, normS_stripS]
      exact hng
    by_cases hc1 : (decide (stripS f = "") || memoryExists (stripS f) L0) = true
    · have hfst : (appendMemory cap t1 f L0).2 = L0 := by
        unfold appendMemory
        rw [if_pos hc1]
      rw [hfst]
      rw [Bool.or_eq_true] at hc1
      have hc2 : (decide (stripS g = "") || memoryExists (stripS g) L0) = true := by
        rw [Bool.or_eq_true]
        rcases hc1 with h | h
        · left
          have hf0 : stripS f = "" := by simpa using h
          have hnf : normS f = "" := (normS_eq_empty_iff f).2 hf0
          have hng0 : normS g = "" := by rw [← hng]; exact hnf
          simpa using (normS_eq_empty_iff g).1 hng0
        · right
          obtain ⟨e, he, heq⟩ := (memoryExists_iff _ _).1 h
          exact (memoryExists_iff _ _).2 ⟨e, he, by rw [heq]; exact hnorm'⟩
      unfold appendMemory
      rw [if_pos hc2]
    · have hfst : (appendMemory cap t1 f L0).2 =
          pruneIfNeeded cap
            (L0 ++ [AEntry.mk t1 (stripS f) (categorizeFact (stripS f))]) := by
        unfold appendMemory
        rw [if_neg hc1]
      rw [hfst]
      rw [Bool.or_eq_true, not_or] at hc1
      obtain ⟨hne, hnex⟩ := hc1
      have hf0 : stripS f ≠ "" := by simpa using hne
      set e0 : AEntry := AEntry.mk t1 (stripS f) (categorizeFact (stripS f))
        with he0
      have hmem : e0 ∈ pruneIfNeeded cap (L0 ++ [e0]) := mem_prune_last cap L0 e0
      have hc2 : (decide (stripS g = "") ||
          memoryExists (stripS g) (pruneIfNeeded cap (L0 ++ [e0]))) = true := by
        rw [Bool.or_eq_true]
        right
        refine (memoryExists_iff _ _).2 ⟨e0, hmem, ?_⟩
        show normS (stripS f) = normS (stripS g)
        exact hnorm'
      unfold appendMemory
      rw [if_pos hc2]

/-- Witness for C1 (amended): a concrete append followed by a
casing/whitespace variant of the same text. -/
theorem claim_C1_amended_witness :
    (((appendMemory 300 1 "I like tea" []).2).map (fun e => normS e.fact)).Nodup ∧
    appendMemory 300 2 " i LIKE  tea " (appendMemory 300 1 "I like tea" []).2 =
      (false, (appendMemory 300 1 "I like tea" []).2) :=
  ⟨claim_C1_amended.1 300 1 "I like tea" [] (by decide),
   claim_C1_amended.2 300 1 2 [] "I like tea" " i LIKE  tea " (by decide)⟩

/-! ## Claim C9: prune-to-cap on add -/

/-- Claim C9, counterexample: With a configured maximum of 1 fact,
`MemoryStore.add_fact` on a one-fact store leaves two facts: it performs no
pruning at all (no cap is wired into `MemoryStore`).  And in the ai_loop
path, with a configured maximum of 0 the prune keeps everything (`[-0:]`
slice), leaving 1 > 0 facts after an append. -/
theorem claim_C9_counterexample :
    ((addFact true 1 "beta" ⟨[Entry.mk 0 "alpha"], [Entry.mk 0 "alpha"]⟩).2).cache =
      [Entry.mk 0 "alpha", Entry.mk 1 "beta"] ∧
    ¬ ((addFact true 1 "beta"
        ⟨[Entry.mk 0 "alpha"], [Entry.mk 0 "alpha"]⟩).2).cache.length ≤ 1 ∧
    ((appendMemory 0 0 "alpha" []).2).length = 1 := by decide

/-- Claim C9, amended: Prune-to-cap applies only to the ai_loop append path
(`append_memory` / `prune_memory_if_needed`), not to
`MemoryStore.add_fact`; there, for a configured cap ≥ 1, when a successful
append pushes the log beyond the cap, exactly the newest `cap` entries are
kept (the log is the single source of state in that path — it is re-read
on every use, so log and "cache" cannot diverge). -/
theorem claim_C9_amended (cap t : Nat) (f : String) (L : List AEntry)
    (hcap : 1 ≤ cap) (hst : (appendMemory cap t f L).1 = true)
    (hover : cap < L.length + 1) :
    (appendMemory cap t f L).2 =
      (L ++ [AEntry.mk t (stripS f) (categorizeFact (stripS f))]).drop
        (L.length + 1 - cap) ∧
    ((appendMemory cap t f L).2).length = cap := by
  have hcond : ¬ (decide (stripS f = "") || memoryExists (stripS f) L) = true := by
    intro hc
    unfold appendMemory at hst
    rw [if_pos hc] at hst
    exact Bool.false_ne_true hst
  have hres : (appendMemory cap t f L).2 =
      pruneIfNeeded cap
        (L ++ [AEntry.mk t (stripS f) (categorizeFact (stripS f))]) := by
    unfold appendMemory
    rw [if_neg hcond]
  set L2 := L ++ [AEntry.mk t (stripS f) (categorizeFact (stripS f))] with hL2
  have hlen2 : L2.length = L.length + 1 := by
    rw [hL2]
    simp
  have hprune : pruneIfNeeded cap L2 = L2.drop (L.length + 1 - cap) := by
    unfold pruneIfNeeded sliceLast
    rw [if_neg (by omega), if_neg (by omega), hlen2]
  refine ⟨?_, ?_⟩
  · rw [hres, hprune]
  · rw [hres, hprune, List.length_drop, hlen2]
    omega

/-- Witness for C9 (amended): cap 1, a one-fact log, a fresh append. -/
theorem claim_C9_amended_witness :
    (appendMemory 1 5 "beta" [AEntry.mk 0 "alpha" Cat.misc]).2 =
      ([AEntry.mk 0 "alpha" Cat.misc] ++
        [AEntry.mk 5 (stripS "beta") (categorizeFact (stripS "beta"))]).drop
        ([AEntry.mk 0 "alpha" Cat.misc].length + 1 - 1) ∧
    ((appendMemory 1 5 "beta" [AEntry.mk 0 "alpha" Cat.misc]).2).length = 1 :=
  claim_C9_amended 1 5 "beta" [AEntry.mk 0 "alpha" Cat.misc] (by decide)
    (by decide) (by decide)

/-! ## Claim C5: deletion semantics -/

theorem listFacts50_length (cache : List Entry) :
    (listFacts 50 cache).length = cache.length - (cache.length - 50) := by
  unfold listFacts sliceLast
  rw [if_neg (by omega)]
  exact List.length_drop _ _

/-- Claim C5, counterexample: Two stored entries share the fact text
`"tea"`; deleting position 0 removes only that entry, and
`list_facts` with a large limit still contains the deleted fact's *text*,
contrary to the claim. -/
theorem claim_C5_counterexample :
    deleteIndexF true 0
        ⟨[Entry.mk 1 "tea", Entry.mk 2 "tea"], [Entry.mk 1 "tea", Entry.mk 2 "tea"]⟩ =
      (Except.ok true, ⟨[Entry.mk 2 "tea"], [Entry.mk 2 "tea"]⟩) ∧
    "tea" ∈ (listFacts 1000 [Entry.mk 2 "tea"]).map (·.fact) :=
  ⟨rfl, by decide⟩

/-- Claim C5, amended: `delete_index i` interprets `i` inside the
`list_facts()` window of the 50 most recent entries.  In bounds (within
that window) it removes exactly the one *entry* at the corresponding
absolute position `p`, leaving the cache `take p ++ drop (p+1)` — every
other entry keeps its multiplicity and relative order, while the deleted
entry's multiplicity drops by exactly one (its *text* may therefore
survive in another entry) — rewrites the log to match the cache, and
returns `true`.  Out of bounds it returns `false` and performs no
mutation. -/
theorem claim_C5_amended (st : Store) (idx p : Nat)
    (hp : p = st.cache.length - (listFacts 50 st.cache).length + idx) :
    (idx < (listFacts 50 st.cache).length →
      deleteIndexF true idx st =
        (Except.ok true, Store.mk (st.cache.eraseIdx p) (st.cache.eraseIdx p)) ∧
      st.cache.eraseIdx p = st.cache.take p ++ st.cache.drop (p + 1) ∧
      p < st.cache.length ∧
      (st.cache.eraseIdx p).length + 1 = st.cache.length ∧
      ∀ hlt : p < st.cache.length,
        (st.cache.eraseIdx p).count (st.cache.get ⟨p, hlt⟩) + 1 =
            st.cache.count (st.cache.get ⟨p, hlt⟩) ∧
        ∀ e : Entry, e ≠ st.cache.get ⟨p, hlt⟩ →
          (st.cache.eraseIdx p).count e = st.cache.count e) ∧
    (¬ idx < (listFacts 50 st.cache).length →
      deleteIndexF true idx st = (Except.ok false, st)) := by
  have hw := listFacts50_length st.cache
  constructor
  · intro hidx
    have hplt : p < st.cache.length := by omega
    refine ⟨?_, List.eraseIdx_eq_take_drop_succ st.cache p, hplt,
      List.length_eraseIdx_add_one hplt, ?_⟩
    · unfold deleteIndexF
      rw [if_pos hidx, if_pos rfl, ← hp]
    · intro hlt
      set a := st.cache.get ⟨p, hlt⟩ with ha
      have hsplit : st.cache = st.cache.take p ++ (a :: st.cache.drop (p + 1)) := by
        conv_lhs => rw [← List.take_append_drop p st.cache]
        congr 1
        rw [List.drop_eq_getElem_cons hlt, ha]
        simp [List.get_eq_getElem]
      have hcache : st.cache.count a =
          (st.cache.take p).count a + (st.cache.drop (p + 1)).count a + 1 := by
        conv_lhs => rw [hsplit]
        rw [List.count_append, List.count_cons_self]
        omega
      have hcachee : ∀ e : Entry, e ≠ a → st.cache.count e =
          (st.cache.take p).count e + (st.cache.drop (p + 1)).count e := by
        intro e he
        conv_lhs => rw [hsplit]
        rw [List.count_append, List.count_cons_of_ne he]
      constructor
      · rw [List.eraseIdx_eq_take_drop_succ, List.count_append, hcache]
      · intro e he
        rw [List.eraseIdx_eq_take_drop_succ, List.count_append, hcachee e he]
  · intro hidx
    unfold deleteIndexF
    rw [if_neg hidx]

/-- Witness for C5 (amended): in-bounds deletion at position 0 of a
two-entry store, and the out-of-bounds branch at position 7. -/
theorem claim_C5_amended_witness :
    (0 < (listFacts 50 [Entry.mk 1 "tea", Entry.mk 2 "milk"]).length →
      deleteIndexF true 0
          ⟨[Entry.mk 1 "tea", Entry.mk 2 "milk"], [Entry.mk 1 "tea", Entry.mk 2 "milk"]⟩ =
        (Except.ok true,
         Store.mk ([Entry.mk 1 "tea", Entry.mk 2 "milk"].eraseIdx 0)
           ([Entry.mk 1 "tea", Entry.mk 2 "milk"].eraseIdx 0)) ∧
      [Entry.mk 1 "tea", Entry.mk 2 "milk"].eraseIdx 0 =
        [Entry.mk 1 "tea", Entry.mk 2 "milk"].take 0 ++
          [Entry.mk 1 "tea", Entry.mk 2 "milk"].drop 1 ∧
      0 < ([Entry.mk 1 "tea", Entry.mk 2 "milk"] : List Entry).length ∧
      (([Entry.mk 1 "tea", Entry.mk 2 "milk"] : List Entry).eraseIdx 0).length + 1 =
        ([Entry.mk 1 "tea", Entry.mk 2 "milk"] : List Entry).length ∧
      ∀ hlt : 0 < ([Entry.mk 1 "tea", Entry.mk 2 "milk"] : List Entry).length,
        (([Entry.mk 1 "tea", Entry.mk 2 "milk"] : List Entry).eraseIdx 0).count
              (([Entry.mk 1 "tea", Entry.mk 2 "milk"] : List Entry).get ⟨0, hlt⟩) + 1 =
            ([Entry.mk 1 "tea", Entry.mk 2 "milk"] : List Entry).count
              (([Entry.mk 1 "tea", Entry.mk 2 "milk"] : List Entry).get ⟨0, hlt⟩) ∧
        ∀ e : Entry,
          e ≠ ([Entry.mk 1 "tea", Entry.mk 2 "milk"] : List Entry).get ⟨0, hlt⟩ →
          (([Entry.mk 1 "tea", Entry.mk 2 "milk"] : List Entry).eraseIdx 0).count e =
            ([Entry.mk 1 "tea", Entry.mk 2 "milk"] : List Entry).count e) ∧
    (¬ 7 < (listFacts 50 [Entry.mk 1 "tea", Entry.mk 2 "milk"]).length →
      deleteIndexF true 7
          ⟨[Entry.mk 1 "tea", Entry.mk 2 "milk"], [Entry.mk 1 "tea", Entry.mk 2 "milk"]⟩ =
        (Except.ok false,
         ⟨[Entry.mk 1 "tea", Entry.mk 2 "milk"], [Entry.mk 1 "tea", Entry.mk 2 "milk"]⟩)) :=
  ⟨(claim_C5_amended
      ⟨[Entry.mk 1 "tea", Entry.mk 2 "milk"], [Entry.mk 1 "tea", Entry.mk 2 "milk"]⟩
      0 0 (by decide)).1,
   (claim_C5_amended
      ⟨[Entry.mk 1 "tea", Entry.mk 2 "milk"], [Entry.mk 1 "tea", Entry.mk 2 "milk"]⟩
      7 7 (by decide)).2⟩

/-! ## Claim C6: mutation atomicity under write failure -/

/-- Claim C6, counterexample: `delete_index` rebuilds the in-memory cache
*before* rewriting the log file, so when the rewrite fails the cache is not
left as it was: on a two-entry store the failed deletion leaves a one-entry
cache. -/
theorem claim_C6_counterexample :
    ((deleteIndexF false 0
        ⟨[Entry.mk 1 "tea", Entry.mk 2 "milk"],
         [Entry.mk 1 "tea", Entry.mk 2 "milk"]⟩).2).cache = [Entry.mk 2 "milk"] ∧
    ¬ ((deleteIndexF false 0
        ⟨[Entry.mk 1 "tea", Entry.mk 2 "milk"],
         [Entry.mk 1 "tea", Entry.mk 2 "milk"]⟩).2).cache =
      [Entry.mk 1 "tea", Entry.mk 2 "milk"] := by decide

/-- Claim C6, amended: `add_fact` has the claimed atomicity: on a failed
write it reports the error (for non-empty text) and leaves cache and log
untouched, and after a successful add with cache = log they remain equal.
`delete_index` does not: on a failed rewrite of an in-bounds deletion the
error propagates, but the cache has already dropped the entry while the
log is stale — a consistent store becomes inconsistent; only the
successful path keeps cache = log. -/
theorem claim_C6_amended :
    (∀ (st : Store) (now : Nat) (f : String),
      ((addFact false now f st).2).cache = st.cache ∧
      ((addFact false now f st).2).log = st.log) ∧
    (∀ (st : Store) (now : Nat) (f : String), stripS f ≠ "" →
      (addFact false now f st).1 = Except.error ()) ∧
    (∀ (st : Store) (now : Nat) (f : String), st.cache = st.log →
      ((addFact true now f st).2).cache = ((addFact true now f st).2).log) ∧
    (∀ (st : Store) (idx : Nat), idx < (listFacts 50 st.cache).length →
      (deleteIndexF false idx st).1 = Except.error () ∧
      ((deleteIndexF false idx st).2).cache =
        st.cache.eraseIdx
          (st.cache.length - (listFacts 50 st.cache).length + idx) ∧
      ((deleteIndexF false idx st).2).log = st.log ∧
      ¬ ((deleteIndexF false idx st).2).cache = st.cache) ∧
    (∀ (st : Store) (idx : Nat), st.cache = st.log →
      ((deleteIndexF true idx st).2).cache = ((deleteIndexF true idx st).2).log) := by
  refine ⟨?_, ?_, ?_, ?_, ?_⟩
  · intro st now f
    unfold addFact
    split
    · exact ⟨rfl, rfl⟩
    · exact ⟨rfl, rfl⟩
  · intro st now f hf
    unfold addFact
    rw [if_neg hf]
    rfl
  · intro st now f hcl
    unfold addFact
    split
    · exact hcl
    · show st.cache ++ _ = st.log ++ _
      rw [hcl]
  · intro st idx hidx
    have hw := listFacts50_length st.cache
    have hplt : st.cache.length - (listFacts 50 st.cache).length + idx <
        st.cache.length := by omega
    unfold deleteIndexF
    rw [if_pos hidx, if_neg (by simp)]
    refine ⟨rfl, rfl, rfl, ?_⟩
    intro heq
    have heq2 : st.cache.eraseIdx
        (st.cache.length - (listFacts 50 st.cache).length + idx) = st.cache := heq
    have hlen := List.length_eraseIdx_add_one hplt
    rw [heq2] at hlen
    omega
  · intro st idx hcl
    unfold deleteIndexF
    split
    · rw [if_pos rfl]
    · exact hcl

/-- Witness for C6 (amended) at a concrete two-entry store. -/
theorem claim_C6_amended_witness :
    (((addFact false 9 "tea" ⟨[Entry.mk 1 "x"], [Entry.mk 1 "x"]⟩).2).cache =
        [Entry.mk 1 "x"] ∧
      ((addFact false 9 "tea" ⟨[Entry.mk 1 "x"], [Entry.mk 1 "x"]⟩).2).log =
        [Entry.mk 1 "x"]) ∧
    (addFact false 9 "tea" ⟨[Entry.mk 1 "x"], [Entry.mk 1 "x"]⟩).1 =
      Except.error () ∧
    ((addFact true 9 "tea" ⟨[Entry.mk 1 "x"], [Entry.mk 1 "x"]⟩).2).cache =
      ((addFact true 9 "tea" ⟨[Entry.mk 1 "x"], [Entry.mk 1 "x"]⟩).2).log ∧
    ((deleteIndexF false 0
        ⟨[Entry.mk 1 "tea", Entry.mk 2 "milk"],
         [Entry.mk 1 "tea", Entry.mk 2 "milk"]⟩).1 = Except.error () ∧
      ¬ ((deleteIndexF false 0
        ⟨[Entry.mk 1 "tea", Entry.mk 2 "milk"],
         [Entry.mk 1 "tea", Entry.mk 2 "milk"]⟩).2).cache =
        [Entry.mk 1 "tea", Entry.mk 2 "milk"]) ∧
    ((deleteIndexF true 0
        ⟨[Entry.mk 1 "tea", Entry.mk 2 "milk"],
         [Entry.mk 1 "tea", Entry.mk 2 "milk"]⟩).2).cache =
      ((deleteIndexF true 0
        ⟨[Entry.mk 1 "tea", Entry.mk 2 "milk"],
         [Entry.mk 1 "tea", Entry.mk 2 "milk"]⟩).2).log := by
  have h1 := claim_C6_amended.1 ⟨[Entry.mk 1 "x"], [Entry.mk 1 "x"]⟩ 9 "tea"
  have h2 := claim_C6_amended.2.1 ⟨[Entry.mk 1 "x"], [Entry.mk 1 "x"]⟩ 9 "tea"
    (by decide)
  have h3 := claim_C6_amended.2.2.1 ⟨[Entry.mk 1 "x"], [Entry.mk 1 "x"]⟩ 9 "tea" rfl
  have h4 := claim_C6_amended.2.2.2.1
    ⟨[Entry.mk 1 "tea", Entry.mk 2 "milk"], [Entry.mk 1 "tea", Entry.mk 2 "milk"]⟩
    0 (by decide)
  have h5 := claim_C6_amended.2.2.2.2
    ⟨[Entry.mk 1 "tea", Entry.mk 2 "milk"], [Entry.mk 1 "tea", Entry.mk 2 "milk"]⟩
    0 rfl
  exact ⟨⟨by rw [h1.1], by rw [h1.2]⟩, h2, h3, ⟨h4.1, by
    intro hc
    exact h4.2.2.2 (by rw [hc])⟩, h5⟩
